import Mathlib

/-!
Verification of the femto text-viewer core (src/main.rs): data model
(`LineBr`, `Buffer`), document construction (`Buffer::from`), serialization
(the `Display` impl used by save), and the navigation/layout/repaint pass
(`Editor::draw`), shallowly embedded as executable Lean functions.

Machine integers: the Rust code stores each grapheme's byte length and
display width as `u8` inside `span` (`as u8` truncates, hence `% 256`
below), while `cols` accumulates the untruncated `usize` widths.  All other
arithmetic is on `usize` and cannot overflow on the inputs considered, so it
is modelled by `Nat`.

The unicode segmenter (`unicode_segmentation`) and width oracle
(`unicode_width`) are external crates; a raw text is therefore modelled as
the list of its grapheme clusters, each carrying its bytes, its display
width, and whether `is_linebreak` holds for it.  The original byte string is
the concatenation of the clusters' bytes.

The terminal is external as well: `Editor::draw` is modelled as a function
returning the updated editor state together with the list of terminal
commands it would `execute!`.  The `loop { ... offset += 1 }` search in
`draw` has no structural termination argument in the source, so the
embedding gives it explicit fuel; `none` means the source loop never exits
within that fuel (and a separate theorem shows an input where it never
exits for any fuel).
-/

namespace Femto

/-- Mirror of `euclid::Size2D` as used for the screen size. -/
structure Size where
  width : Nat
  height : Nat
deriving DecidableEq, Repr

/-- Mirror of `euclid::Point2D` as used for cursor and physical positions. -/
structure Point where
  x : Nat
  y : Nat
deriving DecidableEq, Repr

/-- One grapheme cluster as produced by the external segmenter:
its raw bytes, its display width (`segm.width()`), and whether
`is_linebreak(segm)` holds. -/
structure Segm where
  data : List Nat
  width : Nat
  brk : Bool
deriving DecidableEq, Repr

/-- Mirror of `struct LineBr { data: Vec<u8>, span: Vec<(u8, u8)>, cols: usize }`.
Each `span` entry is (byte length, display width) of one cell. -/
structure LineBr where
  data : List Nat
  span : List (Nat × Nat)
  cols : Nat
deriving DecidableEq, Repr

/-- `LineBr::default()`: empty vectors, `cols = 0`. -/
instance : Inhabited LineBr := ⟨⟨[], [], 0⟩⟩

/-- Mirror of `struct Buffer { line: Vec<LineBr> }`. -/
structure Buffer where
  line : List LineBr
deriving DecidableEq, Repr

/-- `Buffer::rows`. -/
def Buffer.rows (b : Buffer) : Nat := b.line.length

/-- `Buffer::cols(row)`: `self.line[row].cols`.  The source indexes
unconditionally; every use below is in bounds, so out-of-range reads the
`LineBr::default()` value. -/
def Buffer.cols (b : Buffer) (row : Nat) : Nat := (b.line.getD row default).cols

/-- Accumulator loop of `impl From<&str> for Buffer`: fold the grapheme
clusters into lines; `last` is the line currently being built.  A
non-break cluster appends span entry `(len as u8, width as u8)` and adds
the untruncated width to `cols`; a break cluster appends `(len as u8, 1)`,
adds 1 to `cols` and opens a fresh line; at the end the sentinel `(0, 1)`
is appended to the last line. -/
def Buffer.fromAux : List Segm → LineBr → List LineBr
  | [], last => [{ last with span := last.span ++ [(0, 1)], cols := last.cols + 1 }]
  | segm :: rest, last =>
    if segm.brk then
      { last with
          data := last.data ++ segm.data,
          span := last.span ++ [(segm.data.length % 256, 1)],
          cols := last.cols + 1 } :: Buffer.fromAux rest default
    else
      Buffer.fromAux rest
        { last with
            data := last.data ++ segm.data,
            span := last.span ++ [(segm.data.length % 256, segm.width % 256)],
            cols := last.cols + segm.width }

/-- `Buffer::from(text)`, with the text given as its grapheme clusters. -/
def Buffer.fromSegs (gs : List Segm) : Buffer := ⟨Buffer.fromAux gs default⟩

/-- The `fmt::Display` impl for `Buffer` (used by `Editor::save`):
concatenation of every line's `data` bytes. -/
def Buffer.display (b : Buffer) : List Nat := (b.line.map LineBr.data).flatten

/-- The `LineBr::span()` iterator: running byte range and running column
range of each cell, via `scan` from `(0..0, 0..0)`.  Each element is
`((byte start, byte end), (column start, column end))`. -/
def spansAux : List (Nat × Nat) → Nat → Nat → List ((Nat × Nat) × (Nat × Nat))
  | [], _, _ => []
  | (b, w) :: rest, b0, s0 => ((b0, b0 + b), (s0, s0 + w)) :: spansAux rest (b0 + b) (s0 + w)

/-- `lbr.span()` materialized. -/
def LineBr.spans (l : LineBr) : List ((Nat × Nat) × (Nat × Nat)) := spansAux l.span 0 0

/-- Mirror of `enum Action`. -/
inductive Action where
  | full
  | up
  | down
  | left
  | right
  | resize (s : Size)
deriving DecidableEq, Repr

/-- Terminal commands that `Editor::draw` can `execute!`. -/
inductive TermCmd where
  | moveTo (x y : Nat)
  | hideCur
  | showCur
  | clearAll
  | print (bytes : List Nat)
deriving DecidableEq, Repr

/-- Result of one line's cell loop in Step 1 of `draw`:
`found p x` is `break 'outer p` (with the possibly-updated `cursor.x`);
`through p x` is the loop ending (last-cell break or height break). -/
inductive CellRes where
  | found (p : Point) (x : Nat)
  | through (p : Point) (x : Nat)
deriving DecidableEq, Repr

/-- The `cursor.x` carried by a `CellRes`. -/
def CellRes.cx : CellRes → Nat
  | .found _ x => x
  | .through _ x => x

/-- The inner cell loop of Step 1 of `Editor::draw` (lines 261-297 of the
source) over one line's materialized `span()` ranges.  Arguments mirror the
loop state: `pos`, `pos_pre`, `sst_pre`, `fix`, and the mutable
`self.cursor.x` (`curX`).  `isCur` is `l == self.cursor.y`, `cols` is
`lbr.cols`.  A cell whose column range is empty is skipped; if the cell
contains `curX` the action decides between advancing the cursor (Right),
resolving one cell back (Left) or breaking with the current position;
`rest = []` is the `c == lbr.span.len() - 1` break; otherwise the position
advances with soft wrap and the walk stops when the height is exceeded. -/
def cellWalk (act : Action) (scr : Size) (isCur : Bool) (cols : Nat) :
    List ((Nat × Nat) × (Nat × Nat)) → Point → Point → Nat → Bool → Nat → CellRes
  | [], pos, _, _, _, curX => .through pos curX
  | (_, (s0, s1)) :: rest, pos, posPre, sstPre, fix, curX =>
    if s1 ≤ s0 then
      cellWalk act scr isCur cols rest pos posPre sstPre fix curX
    else if isCur = true ∧ s0 ≤ curX ∧ curX < s1 then
      if act = .right ∧ fix = false ∧ curX + 1 < cols then
        if rest = [] then .through pos s1
        else if pos.x + (s1 - s0) ≥ scr.width then
          if pos.y + 1 ≥ scr.height then .through ⟨0, pos.y + 1⟩ s1
          else cellWalk act scr isCur cols rest ⟨0, pos.y + 1⟩ pos s0 true s1
        else cellWalk act scr isCur cols rest ⟨pos.x + (s1 - s0), pos.y⟩ pos s0 true s1
      else if act = .left ∧ 0 < curX then .found posPre sstPre
      else .found pos curX
    else
      if rest = [] then .through pos curX
      else if pos.x + (s1 - s0) ≥ scr.width then
        if pos.y + 1 ≥ scr.height then .through ⟨0, pos.y + 1⟩ curX
        else cellWalk act scr isCur cols rest ⟨0, pos.y + 1⟩ pos s0 fix curX
      else cellWalk act scr isCur cols rest ⟨pos.x + (s1 - s0), pos.y⟩ pos s0 fix curX

/-- Result of the line loop of Step 1: `found p x` is `break 'outer p`,
`exhausted x` means the loop ran out of lines or of screen height, after
which the source does `offset += 1; all = true` and restarts. -/
inductive LineRes where
  | found (p : Point) (x : Nat)
  | exhausted (x : Nat)
deriving DecidableEq, Repr

/-- The `cursor.x` carried by a `LineRes`. -/
def LineRes.cx : LineRes → Nat
  | .found _ x => x
  | .exhausted x => x

/-- The line loop of Step 1 of `Editor::draw` (lines 251-311): lines are
paired with their absolute index; `colPre` is `col_pre`, the previous
line's `cols`, and the eat-newline special case `col_pre == width + 1`
pulls the row back by one at the start of each line.  `pos_pre` is
initialized to `pos` before that adjustment, exactly as in the source.
After a line's cell loop, if it was the cursor line and the action is
Up or Down the walk breaks with the current position; otherwise the
position moves to the next row and the loop stops at the screen height. -/
def lineWalk (act : Action) (scr : Size) (cy : Nat) :
    List (Nat × LineBr) → Point → Nat → Nat → LineRes
  | [], _, _, curX => .exhausted curX
  | (l, lbr) :: rest, pos, colPre, curX =>
    match cellWalk act scr (decide (l = cy)) lbr.cols lbr.spans
        (if colPre = scr.width + 1 then ⟨pos.x, pos.y - 1⟩ else pos) pos 0 false curX with
    | .found p x => .found p x
    | .through pos2 x =>
      if l = cy ∧ (act = .up ∨ act = .down) then .found pos2 x
      else if pos2.y + 1 ≥ scr.height then .exhausted x
      else lineWalk act scr cy rest ⟨0, pos2.y + 1⟩ lbr.cols x

/-- `iter().enumerate().skip(off)` over a list that is already
`drop off`-ed: pair each element with its absolute index. -/
def enumFrom : Nat → List LineBr → List (Nat × LineBr)
  | _, [] => []
  | n, a :: as => (n, a) :: enumFrom (n + 1) as

/-- The `'outer: loop` of Step 1 of `Editor::draw` (lines 245-314): run the
line walk from the current `offset`; on failure increment `offset`, set
`all = true` and retry.  The source loop has no bound, so this takes fuel;
`none` means the loop did not exit within `fuel` retries.  On success it
returns the `break 'outer` position, the final `cursor.x`, the final
`offset` and the `all` flag. -/
def searchCur (act : Action) (scr : Size) (buf : Buffer) (cy : Nat) :
    Nat → Nat → Nat → Bool → Option (Point × Nat × Nat × Bool)
  | 0, _, _, _ => none
  | fuel + 1, off, curX, all =>
    match lineWalk act scr cy (enumFrom off (buf.line.drop off)) ⟨0, 0⟩ 0 curX with
    | .found p x => some (p, x, off, all)
    | .exhausted x => searchCur act scr buf cy fuel (off + 1) x true

/-- The cell loop of Step 2 of `Editor::draw` (lines 341-356): advance the
position over a line's cells, recording in `eol` the byte end of the last
cell fully processed; the last cell (`c == len - 1`) is skipped, and a
height break leaves `eol` at the previous cell. -/
def renderLine (scr : Size) : List ((Nat × Nat) × (Nat × Nat)) → Point → Nat → Point × Nat
  | [], pos, eol => (pos, eol)
  | ((_, b1), (s0, s1)) :: rest, pos, eol =>
    if rest = [] then (pos, eol)
    else if pos.x + (s1 - s0) ≥ scr.width then
      if pos.y + 1 ≥ scr.height then (⟨0, pos.y + 1⟩, eol)
      else renderLine scr rest ⟨0, pos.y + 1⟩ b1
    else renderLine scr rest ⟨pos.x + (s1 - s0), pos.y⟩ b1

/-- The line loop of Step 2 of `Editor::draw` (lines 333-370): materialize
the visible bytes, each line's `data[..eol]` joined by `"\r\n"` (bytes
13, 10), stopping at the screen height; the same `col_pre == width + 1`
special case as in Step 1 pulls the row back by one. -/
def renderWalk (scr : Size) : List LineBr → Point → Nat → List Nat
  | [], _, _ => []
  | lbr :: rest, pos, colPre =>
    let pe := renderLine scr lbr.spans
      (if colPre = scr.width + 1 then ⟨pos.x, pos.y - 1⟩ else pos) 0
    let head := lbr.data.take pe.2
    if pe.1.y + 1 ≥ scr.height then head
    else head ++ [13, 10] ++ renderWalk scr rest ⟨0, pe.1.y + 1⟩ lbr.cols

/-- Mirror of `struct Editor`. -/
structure Editor where
  offset : Nat
  buffer : Buffer
  cursor : Point
  scrsiz : Size
deriving DecidableEq, Repr

/-- The screen size after the `Action::Resize` branch of `draw`
(lines 224-229); a resize to the same size changes nothing. -/
def resizeSize (act : Action) (scrsiz : Size) : Size :=
  match act with
  | .resize s => s
  | _ => scrsiz

/-- The initial `all` flag of `draw`: `action == Action::Full`, or a resize
to a different size (lines 222-229). -/
def drawAll0 (act : Action) (scrsiz : Size) : Bool :=
  match act with
  | .full => true
  | .resize s => decide (scrsiz ≠ s)
  | _ => false

/-- The cursor-move `match` of `draw` (lines 231-238): Up/Down move the
line index under their bound guards and leave the column untouched;
Left/Right clamp the column to `cols(cursor.y) - 1`. -/
def moveCursor (act : Action) (buffer : Buffer) (cursor : Point) : Point :=
  match act with
  | .up => if 0 < cursor.y then ⟨cursor.x, cursor.y - 1⟩ else cursor
  | .down => if cursor.y + 1 < buffer.rows then ⟨cursor.x, cursor.y + 1⟩ else cursor
  | .right | .left => ⟨min cursor.x (buffer.cols cursor.y - 1), cursor.y⟩
  | _ => cursor

/-- The offset recomputation before Step 1 (lines 241-244):
`offset = min(offset, cursor.y)`, then if `cursor.y + 1 >= height`,
`offset = max(offset, cursor.y + 1 - height)`. -/
def scrollOffset (cursor : Point) (scrsiz : Size) (offset : Nat) : Nat :=
  if cursor.y + 1 ≥ scrsiz.height then
    max (min offset cursor.y) (cursor.y + 1 - scrsiz.height)
  else min offset cursor.y

/-- `Editor::draw` (lines 216-384): an empty action list returns
immediately; otherwise only the first action is used.  The result is the
updated editor and the terminal commands written: a lone `MoveTo` when
`all` stayed false, or the hide/clear/print/move/show full repaint.
`none` means the Step 1 search never exits (see `searchCur`). -/
def Editor.draw (fuel : Nat) (st : Editor) (action : List Action) :
    Option (Editor × List TermCmd) :=
  match action with
  | [] => some (st, [])
  | act :: _ =>
    let scrsiz := resizeSize act st.scrsiz
    let cursor1 := moveCursor act st.buffer st.cursor
    match searchCur act scrsiz st.buffer cursor1.y fuel
        (scrollOffset cursor1 scrsiz st.offset) cursor1.x (drawAll0 act st.scrsiz) with
    | none => none
    | some (cur, curX, offset2, all2) =>
      if all2 || decide (st.offset ≠ offset2) then
        some (⟨offset2, st.buffer, ⟨curX, cursor1.y⟩, scrsiz⟩,
          [.hideCur, .clearAll, .moveTo 0 0,
            .print (renderWalk scrsiz (st.buffer.line.drop offset2) ⟨0, 0⟩ 0),
            .moveTo cur.x cur.y, .showCur])
      else
        some (⟨offset2, st.buffer, ⟨curX, cursor1.y⟩, scrsiz⟩, [.moveTo cur.x cur.y])

/-- Apply `draw` to each command of a sequence in turn, as the event loop
in `main` does, keeping only the editor state. -/
def Editor.drawSeq (fuel : Nat) (st : Editor) : List Action → Option Editor
  | [] => some st
  | a :: rest =>
    match st.draw fuel [a] with
    | none => none
    | some (st1, _) => st1.drawSeq fuel rest

/-- A plain one-byte, width-one, non-break grapheme cluster (e.g. an ASCII
letter with code `b`). -/
def ch (b : Nat) : Segm := ⟨[b], 1, false⟩

/-- The LF line-break cluster. -/
def nl : Segm := ⟨[10], 1, true⟩

/-- The `is_linebreak` predicate of the source, on UTF-8 bytes: the eight
accepted terminators are CRLF `"\r\n"` (2 bytes), LF, VT, FF, CR (1 byte
each), NEL U+0085 (2 bytes), LS U+2028 and PS U+2029 (3 bytes each).
A `Segm` whose `brk` flag is set models a cluster accepted by this test,
so in a faithful segmentation `brk = true` implies
`is_linebreak data = true`. -/
def is_linebreak (data : List Nat) : Bool :=
  decide (data = [13, 10] ∨ data = [10] ∨ data = [11] ∨ data = [12] ∨ data = [13] ∨
    data = [194, 133] ∨ data = [226, 128, 168] ∨ data = [226, 128, 169])

/-- The document `"ab\nc"`. -/
def buffer2 : Buffer := Buffer.fromSegs [ch 97, ch 98, nl, ch 99]

/-- The document `"a\nb\nc"`. -/
def buffer3 : Buffer := Buffer.fromSegs [ch 97, nl, ch 98, nl, ch 99]

/-- The document `"ab\nz"`. -/
def buffer5 : Buffer := Buffer.fromSegs [ch 97, ch 98, nl, ch 122]

/-- The document `"abc"`. -/
def cegBuf : Buffer := Buffer.fromSegs [ch 97, ch 98, ch 99]

/-- Sum of the display widths stored in a `span` vector. -/
def widthSum (sl : List (Nat × Nat)) : Nat := (sl.map fun p => p.2).sum

/-- Well-formedness of a constructed line: the span vector is non-empty,
its final cell has display width 1 (the sentinel or a line terminator),
and the stored widths sum to at most `cols` (equality can fail only via
the `as u8` truncation of widths at least 256). -/
def WF (l : LineBr) : Prop :=
  l.span ≠ [] ∧ l.span.getLast?.map Prod.snd = some 1 ∧ widthSum l.span ≤ l.cols

/-- Well-formedness of a buffer: every line is well-formed.  Holds for
every buffer built by `Buffer.fromSegs` (see `fromAux_wf`). -/
def WFbuf (b : Buffer) : Prop := ∀ l ∈ b.line, WF l

instance (l : LineBr) : Decidable (WF l) := by
  unfold WF
  infer_instance

instance (b : Buffer) : Decidable (WFbuf b) := by
  unfold WFbuf
  infer_instance

theorem widthSum_nil : widthSum [] = 0 := rfl

theorem widthSum_cons (p : Nat × Nat) (sl : List (Nat × Nat)) :
    widthSum (p :: sl) = p.2 + widthSum sl := by
  simp [widthSum]

theorem widthSum_append (a b : List (Nat × Nat)) :
    widthSum (a ++ b) = widthSum a + widthSum b := by
  simp [widthSum]

theorem one_le_widthSum :
    ∀ sl : List (Nat × Nat), sl.getLast?.map Prod.snd = some 1 → 1 ≤ widthSum sl := by
  intro sl
  induction sl with
  | nil => intro h; simp at h
  | cons x xs ih =>
    intro h
    cases xs with
    | nil =>
      simp at h
      simp [widthSum, h]
    | cons y ys =>
      rw [List.getLast?_cons_cons] at h
      have := ih h
      rw [widthSum_cons]
      omega

theorem getLast?_cons_ne {α : Type} (x : α) (l : List α) (h : l ≠ []) :
    (x :: l).getLast? = l.getLast? := by
  cases l with
  | nil => exact absurd rfl h
  | cons y ys => exact List.getLast?_cons_cons

theorem LineBr.default_eq : (default : LineBr) = ⟨[], [], 0⟩ := rfl

/-- Serialization distributes over the construction fold: the flattened
`data` of the produced lines is the open accumulator's bytes followed by
all remaining clusters' bytes. -/
theorem fromAux_display :
    ∀ (gs : List Segm) (acc : LineBr),
      ((Buffer.fromAux gs acc).map LineBr.data).flatten =
        acc.data ++ (gs.map Segm.data).flatten := by
  intro gs
  induction gs with
  | nil => intro acc; simp [Buffer.fromAux]
  | cons s rest ih =>
    intro acc
    by_cases hb : s.brk
    · simp [Buffer.fromAux, hb, ih, LineBr.default_eq]
    · simp [Buffer.fromAux, hb, ih]

/-- Every line emitted by the construction fold is well-formed, provided
the open accumulator satisfies the width-sum bound (trivially true of
`LineBr::default()`). -/
theorem fromAux_wf :
    ∀ (gs : List Segm) (acc : LineBr), widthSum acc.span ≤ acc.cols →
      ∀ l ∈ Buffer.fromAux gs acc, WF l := by
  intro gs
  induction gs with
  | nil =>
    intro acc hacc l hl
    simp [Buffer.fromAux] at hl
    subst hl
    refine ⟨by simp, by simp, ?_⟩
    rw [widthSum_append]
    have h1 : widthSum [(0, 1)] = 1 := rfl
    dsimp only
    omega
  | cons s rest ih =>
    intro acc hacc l hl
    by_cases hb : s.brk
    · simp [Buffer.fromAux, hb] at hl
      rcases hl with hl | hl
      · subst hl
        refine ⟨by simp, by simp, ?_⟩
        rw [widthSum_append]
        have h1 : widthSum [(s.data.length % 256, 1)] = 1 := by simp [widthSum]
        dsimp only
        omega
      · exact ih default (by decide) l hl
    · simp only [Buffer.fromAux, hb, if_neg Bool.false_ne_true] at hl
      refine ih _ ?_ l hl
      rw [widthSum_append]
      have h1 : widthSum [(s.data.length % 256, s.width % 256)] = s.width % 256 := by
        simp [widthSum]
      have h2 : s.width % 256 ≤ s.width := Nat.mod_le _ _
      dsimp only
      omega

theorem fromAux_ne_nil : ∀ (gs : List Segm) (acc : LineBr), Buffer.fromAux gs acc ≠ [] := by
  intro gs
  induction gs with
  | nil => intro acc; simp [Buffer.fromAux]
  | cons s rest ih =>
    intro acc
    by_cases hb : s.brk
    · simp [Buffer.fromAux, hb]
    · simp only [Buffer.fromAux, hb]
      simp only [if_neg Bool.false_ne_true]
      exact ih _

/-- The final line produced by the construction fold ends in the sentinel
cell `(0, 1)`. -/
theorem fromAux_lastline :
    ∀ (gs : List Segm) (acc : LineBr),
      (Buffer.fromAux gs acc).getLast?.bind (fun l => l.span.getLast?) = some (0, 1) := by
  intro gs
  induction gs with
  | nil => intro acc; simp [Buffer.fromAux]
  | cons s rest ih =>
    intro acc
    by_cases hb : s.brk
    · have hfa : Buffer.fromAux (s :: rest) acc =
          { acc with
              data := acc.data ++ s.data,
              span := acc.span ++ [(s.data.length % 256, 1)],
              cols := acc.cols + 1 } :: Buffer.fromAux rest default := by
        simp [Buffer.fromAux, hb]
      rw [hfa, getLast?_cons_ne _ _ (fromAux_ne_nil rest default)]
      exact ih default
    · simp only [Buffer.fromAux, hb, if_neg Bool.false_ne_true]
      exact ih _

/-- C1: Round-trip fidelity.  For every text, given as the list of its
grapheme clusters whose concatenated bytes are the original byte sequence,
building a `Buffer` with `Buffer::from` and serializing it with the
`Display` impl used by `Editor::save` reproduces exactly the original
bytes — line terminators of any style, a missing final terminator and the
empty input included, since every cluster's bytes (terminators too) are
stored verbatim in some line's `data`. -/
theorem buffer_roundtrip :
    ∀ gs : List Segm, (Buffer.fromSegs gs).display = (gs.map Segm.data).flatten := by
  intro gs
  have h := fromAux_display gs default
  simpa [Buffer.fromSegs, Buffer.display, LineBr.default_eq] using h

/-- C6, counterexample: in the buffer built from `"a\n"` it is not the
case that every line's final cell has byte length 0 — the first line's
final cell is the terminator cell `(1, 1)`, which carries the newline
byte. -/
theorem sentinel_cx :
    ¬ ∀ l ∈ (Buffer.fromSegs [ch 97, nl]).line,
        l.span.getLast?.map Prod.fst = some 0 := by
  decide

/-- Per-index shape of the final cells of the lines emitted by the
construction fold, for faithful segmentations (every cluster flagged as a
break really is one of the eight `is_linebreak` strings): the line at the
last index ends in the sentinel `(0, 1)`; every earlier line ends in its
terminator cell `(b, 1)` with `b` the terminator's UTF-8 length, one of
1, 2, 3. -/
theorem fromAux_last_cells :
    ∀ (gs : List Segm) (acc : LineBr),
      (∀ s ∈ gs, s.brk = true → is_linebreak s.data = true) →
      ∀ (i : Nat) (l : LineBr), (Buffer.fromAux gs acc).get? i = some l →
        (i + 1 = (Buffer.fromAux gs acc).length → l.span.getLast? = some (0, 1)) ∧
        (i + 1 < (Buffer.fromAux gs acc).length →
          ∃ b, l.span.getLast? = some (b, 1) ∧ (b = 1 ∨ b = 2 ∨ b = 3)) := by
  intro gs
  induction gs with
  | nil =>
    intro acc _ i l hget
    cases i with
    | zero =>
      simp only [Buffer.fromAux, List.get?_cons_zero, Option.some.injEq] at hget
      subst hget
      constructor
      · intro _
        simp
      · intro hlt
        exfalso
        simp [Buffer.fromAux] at hlt
    | succ j =>
      simp only [Buffer.fromAux, List.get?_cons_succ] at hget
      simp at hget
  | cons s rest ih =>
    intro acc hseg i l hget
    by_cases hb : s.brk
    · have hfa : Buffer.fromAux (s :: rest) acc =
          { acc with
              data := acc.data ++ s.data,
              span := acc.span ++ [(s.data.length % 256, 1)],
              cols := acc.cols + 1 } :: Buffer.fromAux rest default := by
        simp [Buffer.fromAux, hb]
      rw [hfa] at hget
      rw [hfa]
      cases i with
      | zero =>
        simp only [List.get?_cons_zero, Option.some.injEq] at hget
        subst hget
        have hlen1 : 0 < (Buffer.fromAux rest default).length :=
          List.length_pos.mpr (fromAux_ne_nil rest default)
        constructor
        · intro heq
          exfalso
          simp only [List.length_cons] at heq
          omega
        · intro _
          refine ⟨s.data.length % 256, by simp, ?_⟩
          have hlb := hseg s (List.mem_cons_self _ _) hb
          unfold is_linebreak at hlb
          rw [decide_eq_true_eq] at hlb
          rcases hlb with h | h | h | h | h | h | h | h <;> rw [h] <;> decide
      | succ j =>
        simp only [List.get?_cons_succ] at hget
        have hj := ih default (fun s2 hs2 => hseg s2 (List.mem_cons_of_mem _ hs2)) j l hget
        simp only [List.length_cons]
        constructor
        · intro heq
          exact hj.1 (by omega)
        · intro hlt
          exact hj.2 (by omega)
    · simp only [Buffer.fromAux, hb, if_neg Bool.false_ne_true] at hget ⊢
      exact ih _ (fun s2 hs2 => hseg s2 (List.mem_cons_of_mem _ hs2)) i l hget

/-- C6, amended: for every faithful segmentation (each cluster flagged as
a break is one of the eight `is_linebreak` strings), every line's final
cell has display width 1; the FINAL line's final cell is the sentinel,
with byte length 0; and every non-final line's final cell is its
line-terminator cell, whose byte length is the terminator's UTF-8 length
— 1 (LF, VT, FF, CR), 2 (CRLF, NEL) or 3 (LS, PS) — in particular never
0, so only the final line's final cell carries no bytes. -/
theorem sentinel_amended :
    ∀ (gs : List Segm), (∀ s ∈ gs, s.brk = true → is_linebreak s.data = true) →
      ∀ (i : Nat) (l : LineBr), (Buffer.fromSegs gs).line.get? i = some l →
        (∃ b, l.span.getLast? = some (b, 1)) ∧
        (i + 1 = (Buffer.fromSegs gs).line.length → l.span.getLast? = some (0, 1)) ∧
        (i + 1 < (Buffer.fromSegs gs).line.length →
          ∃ b, l.span.getLast? = some (b, 1) ∧ (b = 1 ∨ b = 2 ∨ b = 3)) := by
  intro gs hseg i l hget
  have h := fromAux_last_cells gs default hseg i l hget
  obtain ⟨hlt, -⟩ := List.get?_eq_some.mp hget
  have hlen : (Buffer.fromSegs gs).line.length = (Buffer.fromAux gs default).length := rfl
  refine ⟨?_, h.1, h.2⟩
  rcases Nat.lt_or_ge (i + 1) ((Buffer.fromSegs gs).line.length) with hc | hc
  · obtain ⟨b, hb1, -⟩ := h.2 hc
    exact ⟨b, hb1⟩
  · exact ⟨0, h.1 (by omega)⟩

/-- C6, witness: the amended statement on the buffer of `"a\n"` at its
first (non-final) line, whose final cell is the LF terminator `(1, 1)`. -/
theorem sentinel_amended_wit :
    (∃ b, ([(1, 1), (1, 1)] : List (Nat × Nat)).getLast? = some (b, 1)) ∧
      (0 + 1 = (Buffer.fromSegs [ch 97, nl]).line.length →
        ([(1, 1), (1, 1)] : List (Nat × Nat)).getLast? = some (0, 1)) ∧
      (0 + 1 < (Buffer.fromSegs [ch 97, nl]).line.length →
        ∃ b, ([(1, 1), (1, 1)] : List (Nat × Nat)).getLast? = some (b, 1) ∧
          (b = 1 ∨ b = 2 ∨ b = 3)) :=
  sentinel_amended [ch 97, nl] (by decide) 0 ⟨[97, 10], [(1, 1), (1, 1)], 2⟩ (by decide)

/-- C8: `Buffer::from ""` yields exactly one line with empty data, the
lone sentinel cell `(0, 1)` and `cols = 1`; and every input yields a
non-empty (hence valid) document — construction is total, with no error
condition. -/
theorem empty_input :
    Buffer.fromSegs [] = ⟨[⟨[], [(0, 1)], 1⟩]⟩ ∧
      ∀ gs : List Segm, 0 < (Buffer.fromSegs gs).line.length :=
  ⟨rfl, fun gs => List.length_pos.mpr (fromAux_ne_nil gs default)⟩

/-- C9: every line of a constructed buffer ends in a width-1 cell (the
sentinel on the final line, the terminator cell elsewhere), so `cols ≥ 1`
for every line, and the `cols - 1` computed by the Left/Right clamp in
`Editor::draw` is exact (no underflow): `cols - 1 + 1 = cols`. -/
theorem cols_ge_one :
    ∀ (gs : List Segm) (l : LineBr), l ∈ (Buffer.fromSegs gs).line →
      l.span.getLast?.map Prod.snd = some 1 ∧ 1 ≤ l.cols ∧ l.cols - 1 + 1 = l.cols := by
  intro gs l hl
  have hwf := fromAux_wf gs default (by decide) l hl
  rcases hwf with ⟨h1, h2, h3⟩
  have h4 := one_le_widthSum l.span h2
  exact ⟨h2, by omega, by omega⟩

/-- C9, witness: the statement evaluated on the single line of the buffer
of `"a"`. -/
theorem cols_ge_one_wit :
    ([(1, 1), (0, 1)] : List (Nat × Nat)).getLast?.map Prod.snd = some 1 ∧
      1 ≤ 2 ∧ 2 - 1 + 1 = 2 :=
  cols_ge_one [ch 97] ⟨[97], [(1, 1), (0, 1)], 2⟩ (by decide)

theorem exists_getLast? {α : Type} :
    ∀ l : List α, l ≠ [] → ∃ q, l.getLast? = some q := by
  intro l
  induction l with
  | nil => intro h; exact absurd rfl h
  | cons x xs ih =>
    intro _
    cases xs with
    | nil => exact ⟨x, by simp⟩
    | cons y ys =>
      obtain ⟨q, hq⟩ := ih (by simp)
      exact ⟨q, by rw [List.getLast?_cons_cons]; exact hq⟩

theorem spansAux_eq_nil :
    ∀ (sl : List (Nat × Nat)) (b0 s0 : Nat), spansAux sl b0 s0 = [] → sl = [] := by
  intro sl b0 s0 h
  cases sl with
  | nil => rfl
  | cons x xs => obtain ⟨b, w⟩ := x; simp [spansAux] at h

theorem getD_drop (ls : List LineBr) :
    ∀ n m : Nat, (ls.drop n).getD m default = ls.getD (n + m) default := by
  induction ls with
  | nil => intro n m; simp
  | cons x xs ih =>
    intro n m
    cases n with
    | zero => simp
    | succ n =>
      rw [List.drop_succ_cons, show n + 1 + m = (n + m) + 1 by omega, List.getD_cons_succ]
      exact ih n m

theorem enumFrom_mem :
    ∀ (xs : List LineBr) (n i : Nat) (a : LineBr), (i, a) ∈ enumFrom n xs →
      n ≤ i ∧ xs.getD (i - n) default = a := by
  intro xs
  induction xs with
  | nil => intro n i a h; simp [enumFrom] at h
  | cons x xs ih =>
    intro n i a h
    simp only [enumFrom, List.mem_cons] at h
    rcases h with h | h
    · obtain ⟨h1, h2⟩ := Prod.mk.injEq .. ▸ h
      subst h1; subst h2
      simp
    · obtain ⟨h1, h2⟩ := ih (n + 1) i a h
      refine ⟨by omega, ?_⟩
      rw [show i - n = (i - (n + 1)) + 1 by omega, List.getD_cons_succ]
      exact h2

theorem enumFrom_drop_mem (ls : List LineBr) (off i : Nat) (a : LineBr)
    (h : (i, a) ∈ enumFrom off (ls.drop off)) : ls.getD i default = a := by
  obtain ⟨h1, h2⟩ := enumFrom_mem (ls.drop off) off i a h
  rw [getD_drop ls off (i - off)] at h2
  rwa [show off + (i - off) = i by omega] at h2

/-- The cell loop does not move `cursor.x` when the Left/Right mutation
guards cannot fire on the cursor line (and never on other lines). -/
theorem cellWalk_noMut (act : Action) (scr : Size) (isCur : Bool) (cols : Nat) :
    ∀ (sl : List ((Nat × Nat) × (Nat × Nat))) (pos posPre : Point) (sstPre : Nat)
      (fix : Bool) (curX : Nat),
      (isCur = true → (act = .left → curX = 0) ∧ (act = .right → cols ≤ curX + 1)) →
      (cellWalk act scr isCur cols sl pos posPre sstPre fix curX).cx = curX := by
  intro sl
  induction sl with
  | nil => intro pos posPre sstPre fix curX _; rfl
  | cons hd rest ih =>
    obtain ⟨⟨b0, b1⟩, s0, s1⟩ := hd
    intro pos posPre sstPre fix curX h
    simp only [cellWalk]
    split
    · exact ih _ _ _ _ _ h
    · split
      · next hcont =>
        split
        · next hr =>
          exfalso
          have := (h hcont.1).2 hr.1
          omega
        · split
          · next hlft =>
            exfalso
            have := (h hcont.1).1 hlft.1
            omega
          · rfl
      · split
        · rfl
        · split
          · split
            · rfl
            · exact ih _ _ _ _ _ h
          · exact ih _ _ _ _ _ h

/-- The line loop does not move `cursor.x` under the same side conditions. -/
theorem lineWalk_noMut (act : Action) (scr : Size) (cy : Nat) :
    ∀ (lines : List (Nat × LineBr)) (pos : Point) (colPre curX : Nat),
      (∀ p ∈ lines, p.1 = cy →
        (act = .left → curX = 0) ∧ (act = .right → p.2.cols ≤ curX + 1)) →
      (lineWalk act scr cy lines pos colPre curX).cx = curX := by
  intro lines
  induction lines with
  | nil => intro pos colPre curX _; rfl
  | cons hd rest ih =>
    obtain ⟨l, lbr⟩ := hd
    intro pos colPre curX h
    have hcw : (cellWalk act scr (decide (l = cy)) lbr.cols lbr.spans
        (if colPre = scr.width + 1 then ⟨pos.x, pos.y - 1⟩ else pos) pos 0 false curX).cx
          = curX := by
      apply cellWalk_noMut
      intro hdec
      exact h (l, lbr) (List.mem_cons_self _ _) (of_decide_eq_true hdec)
    simp only [lineWalk]
    split
    · next p x heq =>
      rw [heq] at hcw
      simpa [LineRes.cx, CellRes.cx] using hcw
    · next pos2 x heq =>
      rw [heq] at hcw
      simp only [CellRes.cx] at hcw
      subst hcw
      split
      · rfl
      · split
        · rfl
        · exact ih _ _ _ fun p hp => h p (List.mem_cons_of_mem _ hp)

/-- Bound on the `cursor.x` produced by the cell loop: if the walked span
vector ends in a width-1 cell and its widths (from running column `s0`)
fit in `cols`, every outcome's `cursor.x` stays at most `cols - 1`. -/
theorem cellWalk_xbound (act : Action) (scr : Size) (isCur : Bool) (cols : Nat) :
    ∀ (sl : List (Nat × Nat)) (b0 s0 : Nat) (pos posPre : Point) (sstPre : Nat)
      (fix : Bool) (curX : Nat),
      (∀ q, sl.getLast? = some q → q.2 = 1) →
      s0 + widthSum sl ≤ cols →
      curX ≤ cols - 1 → sstPre ≤ cols - 1 →
      (cellWalk act scr isCur cols (spansAux sl b0 s0) pos posPre sstPre fix curX).cx
        ≤ cols - 1 := by
  intro sl
  induction sl with
  | nil => intro b0 s0 pos posPre sstPre fix curX _ _ hx _; exact hx
  | cons hd tl ih =>
    obtain ⟨b, w⟩ := hd
    intro b0 s0 pos posPre sstPre fix curX hlast hsum hx hs
    rw [widthSum_cons] at hsum
    have htl : ∀ q, tl.getLast? = some q → q.2 = 1 := by
      intro q hq
      have hne : tl ≠ [] := by
        intro hnil; rw [hnil] at hq; simp at hq
      exact hlast q (by rw [getLast?_cons_ne _ _ hne]; exact hq)
    have hws : tl ≠ [] → 1 ≤ widthSum tl := by
      intro hne
      obtain ⟨q, hq⟩ := exists_getLast? tl hne
      apply one_le_widthSum
      rw [hq]
      simp [htl q hq]
    simp only [spansAux, cellWalk]
    split
    · exact ih (b0 + b) (s0 + w) _ _ _ _ _ htl (by omega) hx hs
    · next hw1 =>
      have hwpos : 1 ≤ w := by omega
      split
      · next hcont =>
        split
        · next hr =>
          split
          · next hnil =>
            have htnil : tl = [] := spansAux_eq_nil tl _ _ hnil
            subst htnil
            have hw2 : w = 1 := hlast (b, w) (by simp)
            simp only [CellRes.cx]
            omega
          · next hnnil =>
            have htne : tl ≠ [] := by
              intro hnil; exact hnnil (by rw [hnil]; rfl)
            have h1 := hws htne
            split
            · split
              · simp only [CellRes.cx]; omega
              · exact ih (b0 + b) (s0 + w) _ _ _ _ _ htl (by omega) (by omega) (by omega)
            · exact ih (b0 + b) (s0 + w) _ _ _ _ _ htl (by omega) (by omega) (by omega)
        · split
          · exact hs
          · exact hx
      · split
        · exact hx
        · next hnnil =>
          have htne : tl ≠ [] := by
            intro hnil; exact hnnil (by rw [hnil]; rfl)
          have h1 := hws htne
          split
          · split
            · exact hx
            · exact ih (b0 + b) (s0 + w) _ _ _ _ _ htl (by omega) hx (by omega)
          · exact ih (b0 + b) (s0 + w) _ _ _ _ _ htl (by omega) hx (by omega)

/-- Bound on the `cursor.x` produced by the line loop, where `target` is
the cursor's line wherever it occurs among the walked lines. -/
theorem lineWalk_xbound (act : Action) (scr : Size) (cy : Nat) (target : LineBr) :
    ∀ (lines : List (Nat × LineBr)) (pos : Point) (colPre curX : Nat),
      (∀ p ∈ lines, p.1 = cy → p.2 = target) →
      (∀ q, target.span.getLast? = some q → q.2 = 1) →
      widthSum target.span ≤ target.cols →
      curX ≤ target.cols - 1 →
      (lineWalk act scr cy lines pos colPre curX).cx ≤ target.cols - 1 := by
  intro lines
  induction lines with
  | nil => intro pos colPre curX _ _ _ hx; exact hx
  | cons hd rest ih =>
    obtain ⟨l, lbr⟩ := hd
    intro pos colPre curX hagree hq hsum hx
    by_cases hl : l = cy
    · have hlbr : lbr = target := hagree (l, lbr) (List.mem_cons_self _ _) hl
      subst hlbr
      have hcw := cellWalk_xbound act scr (decide (l = cy)) lbr.cols lbr.span 0 0
        (if colPre = scr.width + 1 then ⟨pos.x, pos.y - 1⟩ else pos) pos 0 false curX
        hq (by omega) hx (by omega)
      simp only [lineWalk]
      split
      · next p x heq =>
        simp only [LineBr.spans] at heq
        rw [heq] at hcw
        simpa [LineRes.cx, CellRes.cx] using hcw
      · next pos2 x heq =>
        simp only [LineBr.spans] at heq
        rw [heq] at hcw
        simp only [CellRes.cx] at hcw
        split
        · simpa [LineRes.cx] using hcw
        · split
          · simpa [LineRes.cx] using hcw
          · exact ih _ _ _ (fun p hp => hagree p (List.mem_cons_of_mem _ hp)) hq hsum hcw
    · have hdec : decide (l = cy) = false := decide_eq_false hl
      have hcw : (cellWalk act scr (decide (l = cy)) lbr.cols lbr.spans
          (if colPre = scr.width + 1 then ⟨pos.x, pos.y - 1⟩ else pos) pos 0 false curX).cx
            = curX := by
        apply cellWalk_noMut
        intro htrue
        rw [hdec] at htrue
        cases htrue
      simp only [lineWalk]
      split
      · next p x heq =>
        rw [heq] at hcw
        simp only [CellRes.cx] at hcw
        simpa [LineRes.cx, hcw] using hx
      · next pos2 x heq =>
        rw [heq] at hcw
        simp only [CellRes.cx] at hcw
        split
        · next hud => exact absurd hud.1 hl
        · split
          · simpa [LineRes.cx, hcw] using hx
          · exact ih _ _ _ (fun p hp => hagree p (List.mem_cons_of_mem _ hp)) hq hsum
              (by rw [hcw]; exact hx)

/-- Bound on the `cursor.x` returned by the Step 1 search loop. -/
theorem searchCur_xbound (act : Action) (scr : Size) (buf : Buffer) (cy : Nat) :
    ∀ (fuel off curX : Nat) (all : Bool) (p : Point) (x off2 : Nat) (all2 : Bool),
      (∀ q, (buf.line.getD cy default).span.getLast? = some q → q.2 = 1) →
      widthSum (buf.line.getD cy default).span ≤ (buf.line.getD cy default).cols →
      curX ≤ (buf.line.getD cy default).cols - 1 →
      searchCur act scr buf cy fuel off curX all = some (p, x, off2, all2) →
      x ≤ (buf.line.getD cy default).cols - 1 := by
  intro fuel
  induction fuel with
  | zero =>
    intro off curX all p x off2 all2 _ _ _ hsc
    exact absurd hsc (by simp [searchCur])
  | succ fuel ih =>
    intro off curX all p x off2 all2 hq hsum hx hsc
    have hagree : ∀ pr ∈ enumFrom off (buf.line.drop off), pr.1 = cy →
        pr.2 = buf.line.getD cy default := by
      intro pr hpr hcy
      obtain ⟨i, a⟩ := pr
      simp only at hcy
      subst hcy
      exact (enumFrom_drop_mem buf.line off i a hpr).symm
    have hlw := lineWalk_xbound act scr cy (buf.line.getD cy default)
      (enumFrom off (buf.line.drop off)) ⟨0, 0⟩ 0 curX hagree hq hsum hx
    simp only [searchCur] at hsc
    split at hsc
    · next p' x' heq =>
      rw [heq] at hlw
      simp only [LineRes.cx] at hlw
      simp only [Option.some.injEq, Prod.mk.injEq] at hsc
      obtain ⟨-, hx', -, -⟩ := hsc
      omega
    · next x' heq =>
      rw [heq] at hlw
      simp only [LineRes.cx] at hlw
      exact ih (off + 1) x' true p x off2 all2 hq hsum hlw hsc

theorem getD_mem (ls : List LineBr) : ∀ n : Nat, n < ls.length → ls.getD n default ∈ ls := by
  induction ls with
  | nil => intro n h; simp at h
  | cons x xs ih =>
    intro n h
    cases n with
    | zero => exact List.mem_cons_self _ _
    | succ n =>
      rw [List.getD_cons_succ]
      exact List.mem_cons_of_mem _ (ih n (by simpa using h))

theorem WF_last_q {l : LineBr} (h : WF l) : ∀ q, l.span.getLast? = some q → q.2 = 1 := by
  intro q hq
  have h2 := h.2.1
  rw [hq] at h2
  simpa using h2

/-- The cursor-move `match` preserves `cursor.y < rows`. -/
theorem moveCursor_y_lt (act : Action) (buffer : Buffer) (cursor : Point)
    (hy : cursor.y < buffer.rows) : (moveCursor act buffer cursor).y < buffer.rows := by
  cases act with
  | up =>
    simp only [moveCursor]
    split
    · change cursor.y - 1 < buffer.rows
      omega
    · exact hy
  | down =>
    simp only [moveCursor]
    split
    · next h => simpa using h
    · exact hy
  | left => exact hy
  | right => exact hy
  | full => exact hy
  | resize s => exact hy

/-- One `draw` step on a well-formed buffer with an in-bounds cursor line
keeps the buffer, keeps `cursor.y < rows`, and after a Left or Right
command keeps `cursor.x ≤ cols(cursor.y) - 1`. -/
theorem draw_step (fuel : Nat) (st : Editor) (act : Action) (st' : Editor)
    (out : List TermCmd) (hwf : WFbuf st.buffer) (hy : st.cursor.y < st.buffer.rows)
    (h : st.draw fuel [act] = some (st', out)) :
    st'.buffer = st.buffer ∧ st'.cursor.y < st'.buffer.rows ∧
      ((act = .left ∨ act = .right) →
        st'.cursor.x ≤ st'.buffer.cols st'.cursor.y - 1) := by
  simp only [Editor.draw] at h
  split at h
  · simp at h
  · next cur curX offset2 all2 heq =>
    have hst' : st' = ⟨offset2, st.buffer, ⟨curX, (moveCursor act st.buffer st.cursor).y⟩,
        resizeSize act st.scrsiz⟩ := by
      split at h <;>
        · simp only [Option.some.injEq, Prod.mk.injEq] at h
          exact h.1.symm
    subst hst'
    refine ⟨rfl, moveCursor_y_lt act st.buffer st.cursor hy, ?_⟩
    intro hact
    have hcy : (moveCursor act st.buffer st.cursor).y = st.cursor.y := by
      rcases hact with h1 | h1 <;> subst h1 <;> rfl
    have hwfl : WF (st.buffer.line.getD st.cursor.y default) :=
      hwf _ (getD_mem st.buffer.line st.cursor.y hy)
    have hx0 : (moveCursor act st.buffer st.cursor).x ≤
        (st.buffer.line.getD st.cursor.y default).cols - 1 := by
      rcases hact with h1 | h1 <;> subst h1 <;> exact Nat.min_le_right _ _
    have hxb := searchCur_xbound act (resizeSize act st.scrsiz) st.buffer
      (moveCursor act st.buffer st.cursor).y fuel
      (scrollOffset (moveCursor act st.buffer st.cursor) (resizeSize act st.scrsiz) st.offset)
      (moveCursor act st.buffer st.cursor).x (drawAll0 act st.scrsiz)
      cur curX offset2 all2
      (by rw [hcy]; exact WF_last_q hwfl)
      (by rw [hcy]; exact hwfl.2.2)
      (by rw [hcy]; exact hx0)
      heq
    show curX ≤ Buffer.cols st.buffer (moveCursor act st.buffer st.cursor).y - 1
    rw [hcy] at hxb ⊢
    exact hxb

/-- C10: `Editor::draw` on an empty action list is a complete no-op: it
returns immediately with the state unchanged and no terminal output. -/
theorem draw_nil_noop : ∀ (fuel : Nat) (st : Editor), st.draw fuel [] = some (st, []) :=
  fun _ _ => rfl

/-- C2, counterexample: on the document `"ab\nc"` (80×24 screen), starting
from cursor (0,0), the command sequence Right, Right, Down ends with
`cursor = (x = 2, y = 1)` while line 1 has `cols = 2`, so the claimed
bound `cursor.x ≤ cols(cursor.y) - 1` is violated: Down did not clamp the
column to the target line. -/
theorem cursor_bounds_cx :
    Editor.drawSeq 4 ⟨0, buffer2, ⟨0, 0⟩, ⟨80, 24⟩⟩ [.right, .right, .down] =
        some ⟨0, buffer2, ⟨2, 1⟩, ⟨80, 24⟩⟩ ∧
      buffer2.cols 1 - 1 < 2 := by
  decide

/-- C2, amended: over any command sequence on a well-formed buffer,
`cursor.y < rows` always holds and the buffer is never modified; the
column bound `cursor.x ≤ cols(cursor.y) - 1` holds after every Left or
Right command, but Up and Down leave the column unclamped (see the
counterexample). -/
theorem cursor_bounds_amended :
    ∀ (fuel : Nat) (acts : List Action) (st st' : Editor),
      WFbuf st.buffer → st.cursor.y < st.buffer.rows →
      Editor.drawSeq fuel st acts = some st' →
      st'.buffer = st.buffer ∧ st'.cursor.y < st'.buffer.rows ∧
        ((acts.getLast? = some .left ∨ acts.getLast? = some .right) →
          st'.cursor.x ≤ st'.buffer.cols st'.cursor.y - 1) := by
  intro fuel acts
  induction acts with
  | nil =>
    intro st st' hwf hy hrun
    simp only [Editor.drawSeq, Option.some.injEq] at hrun
    subst hrun
    exact ⟨rfl, hy, by simp⟩
  | cons a rest ih =>
    intro st st' hwf hy hrun
    simp only [Editor.drawSeq] at hrun
    split at hrun
    · simp at hrun
    · next st1 out1 heq =>
      obtain ⟨hbuf, hy1, hx1⟩ := draw_step fuel st a st1 out1 hwf hy heq
      obtain ⟨hbuf', hy', hx'⟩ := ih st1 st' (by rw [hbuf]; exact hwf) hy1 hrun
      refine ⟨by rw [hbuf', hbuf], hy', ?_⟩
      intro hlast
      cases rest with
      | nil =>
        simp only [Editor.drawSeq, Option.some.injEq] at hrun
        subst hrun
        simp only [List.getLast?_singleton] at hlast
        rcases hlast with h1 | h1
        · exact hx1 (Or.inl (Option.some.inj h1))
        · exact hx1 (Or.inr (Option.some.inj h1))
      | cons b bs =>
        apply hx'
        rwa [List.getLast?_cons_cons] at hlast

/-- C2, witness: the amended statement on `"ab\nc"`, 80×24, after the
single command Right from (0,0): the state is (x = 1, y = 0) and the
bounds hold. -/
theorem cursor_bounds_amended_wit :
    buffer2 = buffer2 ∧ 0 < buffer2.rows ∧ 1 ≤ buffer2.cols 0 - 1 := by
  have h := cursor_bounds_amended 4 [.right] ⟨0, buffer2, ⟨0, 0⟩, ⟨80, 24⟩⟩
    ⟨0, buffer2, ⟨1, 0⟩, ⟨80, 24⟩⟩ (by decide) (by decide) (by decide)
  exact ⟨h.1, h.2.1, h.2.2 (Or.inr (by decide))⟩

/-- A `draw` on one action returns `none` as soon as its Step 1 search
does. -/
theorem draw_eq_none (fuel : Nat) (st : Editor) (act : Action)
    (h : searchCur act (resizeSize act st.scrsiz) st.buffer
      (moveCursor act st.buffer st.cursor).y fuel
      (scrollOffset (moveCursor act st.buffer st.cursor) (resizeSize act st.scrsiz) st.offset)
      (moveCursor act st.buffer st.cursor).x (drawAll0 act st.scrsiz) = none) :
    st.draw fuel [act] = none := by
  simp only [Editor.draw, h]

/-- C3: the Step 1 search loop of `Editor::draw` does not terminate on a
reachable input.  On the one-line document `"abc"` with a 1×1 screen
(reachable via `Resize(1,1)`) and cursor (0,0), the command Right moves
`cursor.x` to 1, the walk then exhausts the screen height before locating
the cursor, and the retry loop increments `offset` past the document
length forever: `draw` returns `none` for every fuel, and the source never
aborts or panics — it hangs. -/
theorem search_divergence :
    ∀ fuel : Nat, Editor.draw fuel ⟨0, cegBuf, ⟨0, 0⟩, ⟨1, 1⟩⟩ [.right] = none := by
  have haux : ∀ (f off x : Nat) (a : Bool), 1 ≤ off →
      searchCur .right ⟨1, 1⟩ cegBuf 0 f off x a = none := by
    intro f
    induction f with
    | zero => intro off x a _; rfl
    | succ f ih =>
      intro off x a hoff
      have hdrop : cegBuf.line.drop off = [] := by
        apply List.drop_eq_nil_of_le
        have hlen : cegBuf.line.length = 1 := by decide
        omega
      simp only [searchCur, hdrop]
      exact ih (off + 1) x true (by omega)
  have hsc : ∀ f : Nat, searchCur .right ⟨1, 1⟩ cegBuf 0 f 0 0 false = none := by
    intro f
    cases f with
    | zero => rfl
    | succ f =>
      have h1 : lineWalk .right ⟨1, 1⟩ 0 (enumFrom 0 (cegBuf.line.drop 0)) ⟨0, 0⟩ 0 0 =
          .exhausted 1 := by decide
      simp only [searchCur, h1]
      exact haux f 1 1 true (by omega)
  intro fuel
  apply draw_eq_none
  show searchCur .right ⟨1, 1⟩ cegBuf 0 fuel 0 0 false = none
  exact hsc fuel

/-- C4, counterexample: on `"a\nb\nc"` with a 10×2 screen, cursor (0,1)
and offset 0, the command Down changes the offset by exactly +1 — and the
repaint issued is the full-screen one (hide, clear-all, repaint of the
whole viewport, cursor move, show), not a scroll primitive painting a
single newly-exposed line: the source has no ScrollBy tier at all. -/
theorem scrollby_cx :
    Editor.draw 4 ⟨0, buffer3, ⟨0, 1⟩, ⟨10, 2⟩⟩ [.down] =
        some (⟨1, buffer3, ⟨0, 2⟩, ⟨10, 2⟩⟩,
          [.hideCur, .clearAll, .moveTo 0 0, .print [98, 13, 10, 99],
            .moveTo 0 1, .showCur]) ∧
      TermCmd.clearAll ∈
        [TermCmd.hideCur, .clearAll, .moveTo 0 0, .print [98, 13, 10, 99],
          .moveTo 0 1, .showCur] := by
  decide

/-- C4, amended: whenever a command changes the viewport offset (by ±1 or
by any amount), `Editor::draw` performs the full-screen repaint —
hide cursor, clear all, print the re-rendered viewport, move, show;
there is no single-line ScrollBy tier in the code. -/
theorem offset_change_full (fuel : Nat) (st : Editor) (act : Action) (st' : Editor)
    (out : List TermCmd) (h : st.draw fuel [act] = some (st', out))
    (hne : st'.offset ≠ st.offset) :
    ∃ (bytes : List Nat) (cx cy : Nat),
      out = [.hideCur, .clearAll, .moveTo 0 0, .print bytes, .moveTo cx cy, .showCur] := by
  simp only [Editor.draw] at h
  split at h
  · simp at h
  · next cur curX offset2 all2 heq =>
    split at h
    · simp only [Option.some.injEq, Prod.mk.injEq] at h
      exact ⟨_, cur.x, cur.y, h.2.symm⟩
    · next hcond =>
      exfalso
      simp only [Option.some.injEq, Prod.mk.injEq] at h
      have hoff : st'.offset = offset2 := by rw [← h.1]
      simp only [Bool.or_eq_true, decide_eq_true_eq, not_or] at hcond
      have h2 : st.offset = offset2 := by
        have := hcond.2
        by_contra hne2
        exact this (by simpa using hne2)
      exact hne (by rw [hoff, h2])

/-- C4, witness: the amended statement applied at the counterexample
input, where the offset moves 0 → 1. -/
theorem offset_change_full_wit :
    ∃ (bytes : List Nat) (cx cy : Nat),
      [TermCmd.hideCur, .clearAll, .moveTo 0 0, .print [98, 13, 10, 99],
        .moveTo 0 1, .showCur] =
      [TermCmd.hideCur, .clearAll, .moveTo 0 0, .print bytes, .moveTo cx cy, .showCur] :=
  offset_change_full 4 ⟨0, buffer3, ⟨0, 1⟩, ⟨10, 2⟩⟩ .down ⟨1, buffer3, ⟨0, 2⟩, ⟨10, 2⟩⟩
    [.hideCur, .clearAll, .moveTo 0 0, .print [98, 13, 10, 99], .moveTo 0 1, .showCur]
    (by decide) (by decide)

theorem spansAux_ne_nil (sl : List (Nat × Nat)) (b0 s0 : Nat) (h : sl ≠ []) :
    spansAux sl b0 s0 ≠ [] := by
  intro hnil
  exact h (spansAux_eq_nil sl b0 s0 hnil)

/-- Walking the tail of a line whose remaining cells are all zero-width
followed by the width-1 end cell (on a non-cursor line) ends the cell loop
at the current position. -/
theorem cellWalk_zeros (act : Action) (scr : Size) (cols bterm : Nat) :
    ∀ (tl : List (Nat × Nat)) (b0 s0 : Nat) (pos posPre : Point) (sstPre : Nat)
      (fix : Bool) (curX : Nat), widthSum tl = 0 →
      cellWalk act scr false cols (spansAux (tl ++ [(bterm, 1)]) b0 s0) pos posPre sstPre
        fix curX = .through pos curX := by
  intro tl
  induction tl with
  | nil =>
    intro b0 s0 pos posPre sstPre fix curX _
    simp [List.nil_append, spansAux, cellWalk]
  | cons hd tl ih =>
    obtain ⟨bb, w⟩ := hd
    intro b0 s0 pos posPre sstPre fix curX h
    rw [widthSum_cons] at h
    have hw : w = 0 := by omega
    subst hw
    simp only [List.cons_append, spansAux, cellWalk, Nat.add_zero]
    rw [if_pos (Nat.le_refl s0)]
    exact ih (b0 + bb) s0 pos posPre sstPre fix curX (by omega)

/-- Walking a non-cursor line whose non-zero-width cells exactly fill the
rest of the current physical row (total remaining content width
`scr.width - s0`, starting at column `s0`): the wrap fires exactly at the
line's last non-zero-width cell and the cell loop ends at the start of the
next row — one row consumed, no spurious extra row inside the loop. -/
theorem cellWalk_fill (act : Action) (scr : Size) (cols bterm : Nat) :
    ∀ (sp : List (Nat × Nat)) (b0 s0 y : Nat) (posPre : Point) (sstPre : Nat)
      (fix : Bool) (curX : Nat),
      s0 + widthSum sp = scr.width → 1 ≤ widthSum sp → y + 1 < scr.height →
      cellWalk act scr false cols (spansAux (sp ++ [(bterm, 1)]) b0 s0) ⟨s0, y⟩ posPre
        sstPre fix curX = .through ⟨0, y + 1⟩ curX := by
  intro sp
  induction sp with
  | nil =>
    intro b0 s0 y posPre sstPre fix curX _ h2 _
    rw [widthSum_nil] at h2
    omega
  | cons hd tl ih =>
    obtain ⟨bb, w⟩ := hd
    intro b0 s0 y posPre sstPre fix curX h1 h2 hh
    rw [widthSum_cons] at h1 h2
    by_cases hw0 : w = 0
    · subst hw0
      simp only [List.cons_append, spansAux, cellWalk, Nat.add_zero]
      rw [if_pos (Nat.le_refl s0)]
      exact ih (b0 + bb) s0 y posPre sstPre fix curX (by omega) (by omega) hh
    · simp only [List.cons_append, spansAux, cellWalk]
      rw [if_neg (by omega : ¬(s0 + w ≤ s0))]
      rw [if_neg (by simp : ¬(false = true ∧ s0 ≤ curX ∧ curX < s0 + w))]
      split
      · next hnil => exact absurd hnil (spansAux_ne_nil _ _ _ (by simp))
      · split
        · next hwrap =>
          have hlast : widthSum tl = 0 := by omega
          split
          · rfl
          · exact cellWalk_zeros act scr cols bterm tl (b0 + bb) (s0 + w) ⟨0, y + 1⟩
              ⟨s0, y⟩ s0 fix curX hlast
        · next hnwrap =>
          have hlast : 1 ≤ widthSum tl := by omega
          rw [show ({ x := s0 + (s0 + w - s0), y := y } : Point) = (⟨s0 + w, y⟩ : Point) from by
            have hxx : s0 + (s0 + w - s0) = s0 + w := by omega
            rw [hxx]]
          exact ih (b0 + bb) (s0 + w) y ⟨s0, y⟩ s0 fix curX (by omega) hlast hh

/-- On the cursor line with `cursor.x = 0` and action Full, the cell loop
resolves the cursor at the first non-zero-width cell, which starts at
column 0: the walk breaks immediately with the entry position. -/
theorem cellWalk_find0 (scr : Size) (cols : Nat) :
    ∀ (sl : List (Nat × Nat)) (b0 : Nat) (pos posPre : Point) (sstPre : Nat) (fix : Bool),
      1 ≤ widthSum sl →
      cellWalk .full scr true cols (spansAux sl b0 0) pos posPre sstPre fix 0 =
        .found pos 0 := by
  intro sl
  induction sl with
  | nil =>
    intro b0 pos posPre sstPre fix h
    rw [widthSum_nil] at h
    omega
  | cons hd tl ih =>
    obtain ⟨bb, w⟩ := hd
    intro b0 pos posPre sstPre fix h
    rw [widthSum_cons] at h
    by_cases hw0 : w = 0
    · subst hw0
      simp only [spansAux, cellWalk, Nat.add_zero]
      rw [if_pos (Nat.le_refl 0)]
      exact ih (b0 + bb) pos posPre sstPre fix (by omega)
    · simp only [spansAux, cellWalk]
      split
      · next hskip => exfalso; omega
      · split
        · next hcont =>
          split
          · next hr => exact absurd hr.1 (by decide)
          · split
            · next hlft => exact absurd hlft.1 (by decide)
            · rfl
        · next hcont =>
          exfalso
          exact hcont ⟨by trivial, by omega, by omega⟩

/-- C5, counterexample: on `"ab\nz"` with screen width 1, line 0 has
total width W = cols = 3 (sentinel/terminator included), an exact multiple
of C = 1, and its non-zero-width content lands every cell end exactly on
the screen width; the claim predicts the line occupies
`ceil(W/C) - 1 = 2` physical rows, but resolving the cursor on line 1
places it at physical row 3 (`MoveTo 0 3`): the suppression does not fire
(it fires only when `cols = width + 1`) and the spurious blank row
remains. -/
theorem glitch_cx :
    Editor.draw 4 ⟨0, buffer5, ⟨0, 1⟩, ⟨1, 10⟩⟩ [.full] =
        some (⟨0, buffer5, ⟨0, 1⟩, ⟨1, 10⟩⟩,
          [.hideCur, .clearAll, .moveTo 0 0, .print [97, 98, 13, 10, 122, 13, 10],
            .moveTo 0 3, .showCur]) ∧
      buffer5.cols 0 = 3 ∧ buffer5.cols 0 % 1 = 0 ∧ ¬(3 = buffer5.cols 0 / 1 - 1) := by
  decide

/-- C5, amended: the eat-newline suppression fires exactly when the
previous line's `cols` equals `scr.width + 1`, i.e. when its non-zero-width
content exactly fills one physical row (the identical `col_pre == width+1`
test appears in both the cursor-location walk and the output walk); such a
line occupies 1 physical row instead of 2: with the cursor at the start of
the following line, the walk resolves it at physical row 1.  For content
filling two or more full rows the suppression does not fire and a spurious
blank row remains (see the counterexample). -/
theorem glitch_amended (scr : Size) (l1 l2 : LineBr) (sp : List (Nat × Nat)) (b : Nat)
    (hw : 1 ≤ scr.width) (hh : 3 ≤ scr.height)
    (hspan : l1.span = sp ++ [(b, 1)])
    (hsum : widthSum l1.span = scr.width + 1)
    (hcols : l1.cols = scr.width + 1)
    (hl2 : 1 ≤ widthSum l2.span) :
    lineWalk .full scr 1 [(0, l1), (1, l2)] ⟨0, 0⟩ 0 0 = .found ⟨0, 1⟩ 0 := by
  have hc0 : ¬((0 : Nat) = scr.width + 1) := by omega
  have hsp : widthSum sp = scr.width := by
    rw [hspan, widthSum_append] at hsum
    have hone : widthSum [(b, 1)] = 1 := by simp [widthSum]
    omega
  have hcell1 : cellWalk .full scr (decide ((0 : Nat) = 1)) l1.cols (spansAux l1.span 0 0)
      (⟨0, 0⟩ : Point) (⟨0, 0⟩ : Point) 0 false 0 = .through ⟨0, 1⟩ 0 := by
    rw [hspan]
    exact cellWalk_fill .full scr l1.cols b sp 0 0 0 ⟨0, 0⟩ 0 false 0 (by omega)
      (by omega) (by omega)
  have hcell2 : cellWalk .full scr (decide True) l2.cols (spansAux l2.span 0 0)
      (⟨0, 1 + 1 - 1⟩ : Point) (⟨0, 1 + 1⟩ : Point) 0 false 0 = .found ⟨0, 1⟩ 0 :=
    cellWalk_find0 scr l2.cols l2.span 0 ⟨0, 1⟩ ⟨0, 2⟩ 0 false hl2
  simp only [lineWalk, LineBr.spans]
  rw [if_neg hc0]
  rw [hcell1]
  dsimp only
  split
  · next hcond => exact absurd hcond.1 (by decide)
  · split
    · next hht => exfalso; omega
    · rw [hcell2]

/-- C5, witness: the amended statement on the concrete pair of lines
`"ab\n"` (cols 3) and `"z"` with screen 2×3: line 1's first cell resolves
at row 1 — the line of exactly one full row occupies one physical row. -/
theorem glitch_amended_wit :
    lineWalk .full ⟨2, 3⟩ 1
      [(0, ⟨[97, 98, 10], [(1, 1), (1, 1), (1, 1)], 3⟩), (1, ⟨[122], [(1, 1), (0, 1)], 2⟩)]
      ⟨0, 0⟩ 0 0 = .found ⟨0, 1⟩ 0 :=
  glitch_amended ⟨2, 3⟩ ⟨[97, 98, 10], [(1, 1), (1, 1), (1, 1)], 3⟩
    ⟨[122], [(1, 1), (0, 1)], 2⟩ [(1, 1), (1, 1)] 1
    (by decide) (by decide) (by decide) (by decide) (by decide) (by decide)

/-- C7: no-op edges.  With the cursor and viewport in a consistent state
(cursor line within the viewport, `0 < fuel`), if the Step 1 walk locates
the cursor at the current offset, then Up at line 0, Down at the last
line, Left at column 0 and Right at the line's last navigable position
each leave the whole editor state — cursor and viewport offset included —
unchanged, and the repaint is cursor-only: a single `MoveTo` to the
cursor's resolved physical position (which is a function of the unchanged
state, hence the same as in the previous frame — no net physical move). -/
theorem noop_edges (fuel : Nat) (st : Editor) (act : Action) (p : Point) (xr : Nat)
    (hfuel : 0 < fuel)
    (hy : st.cursor.y < st.buffer.rows)
    (hoff : st.offset ≤ st.cursor.y)
    (hcont : st.cursor.y + 1 ≤ st.offset + st.scrsiz.height)
    (hedge : (act = .up ∧ st.cursor.y = 0) ∨
      (act = .down ∧ st.cursor.y + 1 = st.buffer.rows) ∨
      (act = .left ∧ st.cursor.x = 0) ∨
      (act = .right ∧ st.cursor.x + 1 = st.buffer.cols st.cursor.y))
    (hfind : lineWalk act st.scrsiz st.cursor.y
      (enumFrom st.offset (st.buffer.line.drop st.offset)) ⟨0, 0⟩ 0 st.cursor.x =
        .found p xr) :
    st.draw fuel [act] = some (st, [.moveTo p.x p.y]) := by
  obtain ⟨f, rfl⟩ : ∃ f, fuel = f + 1 := ⟨fuel - 1, by omega⟩
  have hsz : resizeSize act st.scrsiz = st.scrsiz := by
    rcases hedge with ⟨ha, he⟩ | ⟨ha, he⟩ | ⟨ha, he⟩ | ⟨ha, he⟩ <;> subst ha <;> rfl
  have hall : drawAll0 act st.scrsiz = false := by
    rcases hedge with ⟨ha, he⟩ | ⟨ha, he⟩ | ⟨ha, he⟩ | ⟨ha, he⟩ <;> subst ha <;> rfl
  have hcur : moveCursor act st.buffer st.cursor = st.cursor := by
    rcases hedge with ⟨ha, he⟩ | ⟨ha, he⟩ | ⟨ha, he⟩ | ⟨ha, he⟩ <;> subst ha <;>
      simp only [moveCursor]
    · rw [if_neg (by omega)]
    · rw [if_neg (by omega)]
    · rw [show min st.cursor.x (st.buffer.cols st.cursor.y - 1) = st.cursor.x by omega]
    · rw [show min st.cursor.x (st.buffer.cols st.cursor.y - 1) = st.cursor.x by omega]
  have hofs : scrollOffset st.cursor st.scrsiz st.offset = st.offset := by
    simp only [scrollOffset]
    split <;> omega
  have hx : xr = st.cursor.x := by
    have hnm := lineWalk_noMut act st.scrsiz st.cursor.y
      (enumFrom st.offset (st.buffer.line.drop st.offset)) ⟨0, 0⟩ 0 st.cursor.x ?_
    · rw [hfind] at hnm
      simpa [LineRes.cx] using hnm
    · intro pr hpr hcy
      constructor
      · intro hl
        rcases hedge with ⟨ha, he⟩ | ⟨ha, he⟩ | ⟨ha, he⟩ | ⟨ha, he⟩ <;> subst ha <;>
          first | exact he | simp at hl
      · intro hr
        rcases hedge with ⟨ha, he⟩ | ⟨ha, he⟩ | ⟨ha, he⟩ | ⟨ha, he⟩ <;> subst ha
        · simp at hr
        · simp at hr
        · simp at hr
        · obtain ⟨i, a⟩ := pr
          simp only at hcy
          subst hcy
          have hga := enumFrom_drop_mem st.buffer.line st.offset st.cursor.y a hpr
          show a.cols ≤ st.cursor.x + 1
          have haa : st.buffer.cols st.cursor.y = a.cols := by
            show (st.buffer.line.getD st.cursor.y default).cols = a.cols
            rw [hga]
          omega
  simp only [Editor.draw]
  rw [hsz, hcur, hall, hofs, searchCur, hfind, hx]
  simp only [ne_eq, Bool.false_or, decide_not]
  rw [if_neg (by simp)]

/-- C7, witness: Up at line 0 on `"abc"` (80×24): state unchanged, output
a single `MoveTo 0 0`. -/
theorem noop_edges_wit :
    Editor.draw 1 ⟨0, cegBuf, ⟨0, 0⟩, ⟨80, 24⟩⟩ [.up] =
      some (⟨0, cegBuf, ⟨0, 0⟩, ⟨80, 24⟩⟩, [.moveTo 0 0]) :=
  noop_edges 1 ⟨0, cegBuf, ⟨0, 0⟩, ⟨80, 24⟩⟩ .up ⟨0, 0⟩ 0 (by decide) (by decide)
    (by decide) (by decide) (Or.inl ⟨rfl, rfl⟩) (by decide)

end Femto
